import Mathlib

set_option maxHeartbeats 1000000

namespace LiveEditModel

/- ===================== ScriptComparator (liveedit.h 147-176) ===================== -/

/-- A diff chunk as delivered to Comparator::Output::AddChunk(pos1, pos2, len1, len2):
start positions into the two sequences and lengths of the replaced ranges. -/
structure Chunk where
  pos1 : Nat
  pos2 : Nat
  len1 : Nat
  len2 : Nat
deriving DecidableEq, Repr

/-- Splits a list at the first occurrence of an element: returns the prefix before it
and the suffix after it (helper for reading a common subsequence off both inputs). -/
def splitAtFirst [DecidableEq α] (c : α) : List α → List α × List α
  | [] => ([], [])
  | x :: xs =>
    if x = c then ([], xs)
    else
      let r := splitAtFirst c xs
      (x :: r.1, r.2)

/-- Picks the longer of two lists (first on ties). -/
def longerList (xs ys : List α) : List α :=
  if ys.length ≤ xs.length then xs else ys

/-- Fuelled longest-common-subsequence recursion; fuel bounds the recursion depth so the
definition is structural and evaluates by kernel reduction. -/
def lcsGo [DecidableEq α] : Nat → List α → List α → List α
  | 0, _, _ => []
  | _ + 1, [], _ => []
  | _ + 1, _ :: _, [] => []
  | fuel + 1, a :: xs, b :: ys =>
    if a = b then a :: lcsGo fuel xs ys
    else longerList (lcsGo fuel (a :: xs) ys) (lcsGo fuel xs (b :: ys))

/-- Longest common subsequence of two lists. -/
def lcs [DecidableEq α] (xs ys : List α) : List α :=
  lcsGo (xs.length + ys.length) xs ys

/-- Emits the replace chunks separating two sequences, walking a common subsequence:
between consecutive common elements, any non-empty pair of differing runs becomes one
chunk. `i` and `j` are the absolute positions of `xs` and `ys` in the full sequences. -/
def chunksFrom [DecidableEq α] : Nat → Nat → List α → List α → List α → List Chunk
  | i, j, xs, ys, [] =>
    if xs.isEmpty && ys.isEmpty then [] else [⟨i, j, xs.length, ys.length⟩]
  | i, j, xs, ys, c :: l =>
    let px := (splitAtFirst c xs).1
    let sx := (splitAtFirst c xs).2
    let py := (splitAtFirst c ys).1
    let sy := (splitAtFirst c ys).2
    (if px.isEmpty && py.isEmpty then [] else [⟨i, j, px.length, py.length⟩]) ++
      chunksFrom (i + px.length + 1) (j + py.length + 1) sx sy l

/-- Modelled from the spec: Comparator::CalculateDifference (declared at liveedit.h
173-175, body in liveedit.cc which is not in the repository): produce the minimal
ordered list of DiffChunks such that applying them to sequence 1 reproduces sequence 2.
Modelled as the chunks separating the two sequences around a longest common
subsequence. -/
def calculateDifference [DecidableEq α] (xs ys : List α) : List Chunk :=
  chunksFrom 0 0 xs ys (lcs xs ys)

/-- Modelled from the spec: LiveEdit::CompareStrings (declared at liveedit.h 142-143,
body in liveedit.cc which is not in the repository): the string instantiation of the
comparator, at character granularity. -/
def compareStrings (s1 s2 : List Char) : List Chunk :=
  calculateDifference s1 s2

/-- Applies a list of chunks to the old sequence: `i` is the absolute position of the
remaining old suffix `xs`; replaced ranges are taken from `new1` by position. -/
def applyFrom (new1 : List α) : List Chunk → Nat → List α → List α
  | [], _, xs => xs
  | c :: cs, i, xs =>
    xs.take (c.pos1 - i) ++ (new1.drop c.pos2).take c.len2 ++
      applyFrom new1 cs (c.pos1 + c.len1) (xs.drop (c.pos1 + c.len1 - i))

/-- Applies a full chunk list to the old sequence (replacement text read from `new1`). -/
def applyChunks (old1 new1 : List α) (cs : List Chunk) : List α :=
  applyFrom new1 cs 0 old1

/-- The first chunk (if any) starts at old-position at least `n`. -/
def headPos1Ge (n : Nat) : List Chunk → Prop
  | [] => True
  | c :: _ => n ≤ c.pos1

/-- The first chunk (if any) starts at new-position at least `n`. -/
def headPos2Ge (n : Nat) : List Chunk → Prop
  | [] => True
  | c :: _ => n ≤ c.pos2

/-- Consecutive chunks are separated by at least one untouched element on both sides:
this is the shape that makes two adjacent chunks non-mergeable without replacing
unchanged text. -/
def sepChunks : List Chunk → Prop
  | [] => True
  | [_] => True
  | a :: b :: rest =>
    a.pos1 + a.len1 < b.pos1 ∧ a.pos2 + a.len2 < b.pos2 ∧ sepChunks (b :: rest)

/- ===================== StackGuard (liveedit.h 118-137) ===================== -/

/-- FunctionPatchabilityStatus, embedded from liveedit.h lines 131-137. -/
inductive FunctionPatchabilityStatus
  | availableForPatch
  | blockedOnActiveStack
  | blockedOnOtherStack
  | blockedUnderNativeCode
  | replacedOnActiveStack
deriving DecidableEq, Repr

/-- The numeric enum value of each status, from liveedit.h lines 132-136. -/
def statusCode : FunctionPatchabilityStatus → Nat
  | .availableForPatch => 1
  | .blockedOnActiveStack => 2
  | .blockedOnOtherStack => 3
  | .blockedUnderNativeCode => 4
  | .replacedOnActiveStack => 5

/-- A call-stack frame: a JavaScript frame executing function `fn` at program point
`pc`, or a non-reentrant native frame. -/
inductive Frame
  | js (fn : Nat) (pc : Nat)
  | native
deriving DecidableEq, Repr

/-- A call stack, innermost (top) frame first. -/
abbrev Stack := List Frame

/-- `true` exactly on native frames. -/
def Frame.isNative : Frame → Bool
  | .js _ _ => false
  | .native => true

/-- The live stacks: the stack issuing the patch request plus all other stacks. -/
structure VMState where
  active : Stack
  others : List Stack
deriving DecidableEq, Repr

/-- Scans a stack top-down for function `f`; `nativeSeen` records whether a native
frame was crossed. The first frame executing `f` determines the classification:
blocked under native code if a native frame lies above it, otherwise blocked on the
active or on another stack; no activation at all means available. -/
def classifyScan (f : Nat) (isActive : Bool) : Stack → Bool → FunctionPatchabilityStatus
  | [], _ => .availableForPatch
  | .native :: rest, _ => classifyScan f isActive rest true
  | .js g _ :: rest, nativeSeen =>
    if g = f then
      if nativeSeen then .blockedUnderNativeCode
      else if isActive then .blockedOnActiveStack else .blockedOnOtherStack
    else classifyScan f isActive rest nativeSeen

/-- Modelled from the spec: the per-stack classification of StackGuard
("scan each stack top-down; the first frame matching a changed function determines
that stack's classification for that function"; LiveEdit::CheckAndDropActivations'
body is in liveedit.cc, not in the repository). -/
def classifyStack (f : Nat) (isActive : Bool) (s : Stack) : FunctionPatchabilityStatus :=
  classifyScan f isActive s false

/-- `true` when the candidate status outranks the current one in restrictiveness. -/
def moreRestrictive (a b : FunctionPatchabilityStatus) : Bool :=
  statusCode b < statusCode a

/-- Keeps the more restrictive of the current and the newly observed status. -/
def updateStatus (cur new1 : FunctionPatchabilityStatus) : FunctionPatchabilityStatus :=
  if moreRestrictive new1 cur then new1 else cur

/-- Modelled from the spec: the aggregate status of one function across all stacks,
computed operationally as a scan that keeps the most restrictive status seen so far. -/
def checkStatus (f : Nat) (vm : VMState) : FunctionPatchabilityStatus :=
  vm.others.foldl (fun cur s => updateStatus cur (classifyStack f false s))
    (updateStatus .availableForPatch (classifyStack f true vm.active))

/-- The list of per-stack classifications of a function (active stack first). -/
def stackStatusList (f : Nat) (vm : VMState) : List FunctionPatchabilityStatus :=
  classifyStack f true vm.active :: vm.others.map (classifyStack f false)

/-- `true` on frames executing one of the changed functions. -/
def isChangedFrame (changed : List Nat) : Frame → Bool
  | .js g _ => changed.contains g
  | .native => false

/-- Splits a stack at the lowest (deepest) frame satisfying `p`: returns the frames
above it, the frame itself, and the frames below it. The header comment
(liveedit.h 118-122) restarts the lowest found frame and drops all frames above. -/
def splitAtLastMatch (p : Frame → Bool) : Stack → Option (Stack × Frame × Stack)
  | [] => none
  | x :: xs =>
    match splitAtLastMatch p xs with
    | some r => some (x :: r.1, r.2.1, r.2.2)
    | none => if p x then some ([], x, xs) else none

/-- Modelled from the spec: LiveEdit::RestartFrame restarts a frame at the beginning
of its function body (body in liveedit.cc, not in the repository). -/
def restartFrame : Frame → Frame
  | .js fn _ => .js fn 0
  | .native => .native

/-- The result of CheckAndDropActivations: one status per requested function, and the
resulting stacks. -/
structure CheckResult where
  statuses : List (Nat × FunctionPatchabilityStatus)
  vm : VMState
deriving DecidableEq, Repr

/-- Modelled from the spec: LiveEdit::CheckAndDropActivations (declared at liveedit.h
123-124, body in liveedit.cc which is not in the repository). Reports one status per
changed function (the most restrictive across all stacks); when `doDrop` is set, no
native frame lies above the lowest changed-function frame of the requesting stack, and
no changed function is blocked on another stack or under native code, it discards all
frames above that target frame, restarts the target, and upgrades every function that
was blocked on the active stack to replaced-on-active-stack. Otherwise nothing is
mutated. -/
def checkAndDropActivations (changed : List Nat) (doDrop : Bool) (vm : VMState) :
    CheckResult :=
  match splitAtLastMatch (isChangedFrame changed) vm.active with
  | some r =>
    if doDrop && !(r.1.any Frame.isNative) &&
        changed.all (fun g => statusCode (checkStatus g vm) ≤ 2) then
      { statuses := changed.map (fun g =>
          (g, if checkStatus g vm = .blockedOnActiveStack then .replacedOnActiveStack
              else checkStatus g vm)),
        vm := { active := restartFrame r.2.1 :: r.2.2, others := vm.others } }
    else { statuses := changed.map (fun g => (g, checkStatus g vm)), vm := vm }
  | none => { statuses := changed.map (fun g => (g, checkStatus g vm)), vm := vm }

/- ===================== FunctionTree / CompatibilityAnalyzer ===================== -/

/-- One function record of a compiled script version: signature shape, captured
outer-scope shape, parent linkage by index, and handles to compiled code and
scope-info metadata. -/
structure FunctionRecord where
  name : String
  paramCount : Nat
  literalCount : Nat
  scopeShape : List Nat
  parentIndex : Option Nat
  code : Nat
  scopeInfo : Nat
deriving DecidableEq, Repr

/-- Modelled from the spec: two records are compatible exactly when parameter count,
literal count and captured outer-scope shape match (code bodies are free to differ;
the analysis lives in liveedit.cc, not in the repository; cf. the header comment at
liveedit.h 40-49). -/
def compatibleRecords (a b : FunctionRecord) : Bool :=
  a.paramCount == b.paramCount && a.literalCount == b.literalCount &&
    a.scopeShape == b.scopeShape

/-- Compatibility of the records at one structural position of the two trees;
a position missing from either tree is incompatible. -/
def compatibleAt (oldT newT : List FunctionRecord) (i : Nat) : Bool :=
  match oldT.get? i, newT.get? i with
  | some a, some b => compatibleRecords a b
  | _, _ => false

/-- Fuelled climb from an affected record towards the root: stops at the first
compatible record (or at the root, which is always patchable); otherwise moves to the
parent. -/
def patchTargetGo (oldT newT : List FunctionRecord) : Nat → Nat → Nat
  | 0, i => i
  | fuel + 1, i =>
    match oldT.get? i with
    | none => i
    | some r =>
      match r.parentIndex with
      | none => i
      | some p => if compatibleAt oldT newT i then i else patchTargetGo oldT newT fuel p

/-- Modelled from the spec: CompatibilityAnalyzer's patch-mark propagation (the
analysis lives in liveedit.cc / liveedit-debugger.js, not in the repository): the
record actually patched for an affected record `i` is the nearest compatible ancestor,
or the root. -/
def patchTarget (oldT newT : List FunctionRecord) (i : Nat) : Nat :=
  patchTargetGo oldT newT (i + 1) i

/-- Parent indices point strictly upwards in the record array (the arena layout of the
tree), checked over all positions. -/
def wellFormedParents (t : List FunctionRecord) : Bool :=
  (List.range t.length).all (fun j =>
    match t.get? j with
    | some r =>
      match r.parentIndex with
      | some p => decide (p < j)
      | none => true
    | none => true)

/- ===================== CodePatcher (liveedit.h 93-94) ===================== -/

/-- The externally visible program state acted on by CodePatcher: the function
records, the already-created closures (record index paired with the code handle they
captured at creation time), and the live stacks. -/
structure ProgState where
  records : List FunctionRecord
  closures : List (Nat × Nat)
  liveStacks : List Stack
deriving DecidableEq, Repr

/-- Replaces the code and scope-info handles of the record at one index, leaving every
other field and every other record unchanged. -/
def setCodeAt : List FunctionRecord → Nat → Nat → Nat → List FunctionRecord
  | [], _, _, _ => []
  | r :: rest, 0, c, s => { r with code := c, scopeInfo := s } :: rest
  | r :: rest, j + 1, c, s => r :: setCodeAt rest j c s

/-- Modelled from the spec: LiveEdit::ReplaceFunctionCode (declared at liveedit.h
93-94, body in liveedit.cc which is not in the repository): for each entry
(index, newCode, newScopeInfo) of the patch plan, swaps the compiled-code and
scope-info handles of that record; closures and stacks are not touched. -/
def replaceFunctionCode (plan : List (Nat × Nat × Nat)) (st : ProgState) : ProgState :=
  { st with records := plan.foldl (fun recs e => setCodeAt recs e.1 e.2.1 e.2.2) st.records }

/-- A record with its code and scope-info handles blanked: two states agree under this
map exactly when they differ at most in code and scope-info handles. -/
def stripCode (r : FunctionRecord) : FunctionRecord :=
  { r with code := 0, scopeInfo := 0 }

/-- Modelled from the spec: the whole patch operation aborts before any mutation when
either script version fails to compile (GatherCompileInfo, liveedit.h 87-89, returns a
MaybeHandle; the driving logic is in liveedit.cc / liveedit-debugger.js, not in the
repository); only after both compiles succeed does CodePatcher run. -/
def patchOperation (oldCompile newCompile : Option (List FunctionRecord))
    (planOf : List FunctionRecord → List FunctionRecord → List (Nat × Nat × Nat))
    (st : ProgState) : Option String × ProgState :=
  match oldCompile, newCompile with
  | some oldT, some newT => (none, replaceFunctionCode (planOf oldT newT) st)
  | _, _ => (some "compile error", st)

/- ===================== JSArray-based wrappers (liveedit.h 180-323) ===================== -/

/-- A host-visible value stored in a JSArray slot. -/
inductive Obj
  | smi (n : Int)
  | str (s : String)
  | jsValue (h : Nat)
  | ref (h : Nat)
  | undefinedObj
deriving DecidableEq, Repr

/-- `true` exactly on JSValue wrappers (Object::IsJSValue). -/
def isJSValueObj : Obj → Bool
  | .jsValue _ => true
  | _ => false

/-- JSObject::SetElement on the slot map of a JSArrayBasedStruct (liveedit.h 210-216). -/
def setField (a : Nat → Obj) (pos : Nat) (v : Obj) : Nat → Obj :=
  fun k => if k = pos then v else a k

/-- SetSmiValueField wraps an integer as a Smi before storing it (liveedit.h 214-216). -/
def setSmiValueField (a : Nat → Obj) (pos : Nat) (v : Int) : Nat → Obj :=
  setField a pos (Obj.smi v)

/-- GetField reads a slot (liveedit.h 218-221). -/
def getField (a : Nat → Obj) (pos : Nat) : Obj :=
  a pos

/-- GetSmiValueField reads a slot expected to hold a Smi (liveedit.h 223-226). -/
def getSmiValueField (a : Nat → Obj) (pos : Nat) : Int :=
  match a pos with
  | .smi n => n
  | _ => 0

namespace FunctionInfoWrapper

/-- Field offsets of FunctionInfoWrapper, embedded from liveedit.h lines 277-287. -/
def kFunctionNameOffset_ : Nat := 0

def kStartPositionOffset_ : Nat := 1

def kEndPositionOffset_ : Nat := 2

def kParamNumOffset_ : Nat := 3

def kCodeOffset_ : Nat := 4

def kCodeScopeInfoOffset_ : Nat := 5

def kFunctionScopeInfoOffset_ : Nat := 6

def kParentIndexOffset_ : Nat := 7

def kSharedFunctionInfoOffset_ : Nat := 8

def kLiteralNumOffset_ : Nat := 9

def kSize_ : Nat := 10

/-- Modelled from the spec: FunctionInfoWrapper::SetInitialProperties (declared at
liveedit.h 242-247, body in liveedit.cc which is not in the repository): stores name,
start and end position, parameter count, literal count and parent index into their
fixed slots. -/
def setInitialProperties (a : Nat → Obj) (name : String)
    (startPos endPos paramNum literalCount parentIndex : Int) : Nat → Obj :=
  let a1 := setField a kFunctionNameOffset_ (Obj.str name)
  let a2 := setSmiValueField a1 kStartPositionOffset_ startPos
  let a3 := setSmiValueField a2 kEndPositionOffset_ endPos
  let a4 := setSmiValueField a3 kParamNumOffset_ paramNum
  let a5 := setSmiValueField a4 kLiteralNumOffset_ literalCount
  setSmiValueField a5 kParentIndexOffset_ parentIndex

/-- Modelled from the spec: FunctionInfoWrapper::SetFunctionCode (declared at
liveedit.h 249-250, body in liveedit.cc): stores the code object and its code scope
info into their fixed slots. -/
def setFunctionCode (a : Nat → Obj) (functionCode codeScopeInfo : Obj) : Nat → Obj :=
  setField (setField a kCodeOffset_ functionCode) kCodeScopeInfoOffset_ codeScopeInfo

/-- SetFunctionScopeInfo, embedded from liveedit.h lines 252-254. -/
def setFunctionScopeInfo (a : Nat → Obj) (scopeInfoArray : Obj) : Nat → Obj :=
  setField a kFunctionScopeInfoOffset_ scopeInfoArray

/-- Modelled from the spec: FunctionInfoWrapper::SetSharedFunctionInfo (declared at
liveedit.h 256, body in liveedit.cc): stores the wrapped SharedFunctionInfo into its
fixed slot. -/
def setSharedFunctionInfo (a : Nat → Obj) (info : Obj) : Nat → Obj :=
  setField a kSharedFunctionInfoOffset_ info

/-- GetLiteralCount, embedded from liveedit.h lines 258-260. -/
def getLiteralCount (a : Nat → Obj) : Int :=
  getSmiValueField a kLiteralNumOffset_

/-- GetParentIndex, embedded from liveedit.h lines 262-264. -/
def getParentIndex (a : Nat → Obj) : Int :=
  getSmiValueField a kParentIndexOffset_

/-- GetStartPosition, embedded from liveedit.h lines 270-272. -/
def getStartPosition (a : Nat → Obj) : Int :=
  getSmiValueField a kStartPositionOffset_

/-- GetEndPosition, embedded from liveedit.h line 274. -/
def getEndPosition (a : Nat → Obj) : Int :=
  getSmiValueField a kEndPositionOffset_

/-- A fully built compile-info record: initial properties, then code, function scope
info and shared-function info. -/
def buildFunctionInfo (a : Nat → Obj) (name : String)
    (startPos endPos paramNum literalCount parentIndex : Int)
    (functionCode codeScopeInfo scopeInfoArray sharedInfo : Obj) : Nat → Obj :=
  setSharedFunctionInfo
    (setFunctionScopeInfo
      (setFunctionCode
        (setInitialProperties a name startPos endPos paramNum literalCount parentIndex)
        functionCode codeScopeInfo)
      scopeInfoArray)
    sharedInfo

end FunctionInfoWrapper

namespace SharedInfoWrapper

/-- Field offsets of SharedInfoWrapper, embedded from liveedit.h lines 316-320. -/
def kFunctionNameOffset_ : Nat := 0

def kStartPositionOffset_ : Nat := 1

def kEndPositionOffset_ : Nat := 2

def kSharedInfoOffset_ : Nat := 3

def kSize_ : Nat := 4

/-- Object::GetElementNoExceptionThrown on a JSArray modelled as a list of values
(absent elements read as undefined). -/
def getElementNoExceptionThrown (a : List Obj) (i : Nat) : Obj :=
  (a.get? i).getD Obj.undefinedObj

/-- SharedInfoWrapper::IsInstance, embedded from liveedit.h lines 298-302:
the array has length kSize_ and its kSharedInfoOffset_ element is a JSValue. -/
def isInstance (array : List Obj) : Bool :=
  array.length == kSize_ &&
    isJSValueObj (getElementNoExceptionThrown array kSharedInfoOffset_)

end SharedInfoWrapper

/- ===================== Theorems: ScriptComparator ===================== -/

theorem longerList_eq_or (xs ys : List α) : longerList xs ys = xs ∨ longerList xs ys = ys := by
  unfold longerList
  split
  · exact Or.inl rfl
  · exact Or.inr rfl

theorem lcsGo_sublist_left [DecidableEq α] :
    ∀ (fuel : Nat) (xs ys : List α), List.Sublist (lcsGo fuel xs ys) xs := by
  intro fuel
  induction fuel with
  | zero => intro xs ys; simp [lcsGo]
  | succ n ih =>
    intro xs ys
    match xs, ys with
    | [], _ => simp [lcsGo]
    | _ :: _, [] => simp [lcsGo]
    | a :: xs, b :: ys =>
      simp only [lcsGo]
      split
      · exact List.Sublist.cons₂ a (ih xs ys)
      · rcases longerList_eq_or (lcsGo n (a :: xs) ys) (lcsGo n xs (b :: ys)) with h | h
        · rw [h]; exact ih (a :: xs) ys
        · rw [h]; exact List.Sublist.cons a (ih xs (b :: ys))

theorem lcsGo_sublist_right [DecidableEq α] :
    ∀ (fuel : Nat) (xs ys : List α), List.Sublist (lcsGo fuel xs ys) ys := by
  intro fuel
  induction fuel with
  | zero => intro xs ys; simp [lcsGo]
  | succ n ih =>
    intro xs ys
    match xs, ys with
    | [], _ => simp [lcsGo]
    | _ :: _, [] => simp [lcsGo]
    | a :: xs, b :: ys =>
      simp only [lcsGo]
      split
      · next h => rw [h]; exact List.Sublist.cons₂ b (ih xs ys)
      · rcases longerList_eq_or (lcsGo n (a :: xs) ys) (lcsGo n xs (b :: ys)) with h | h
        · rw [h]; exact List.Sublist.cons b (ih (a :: xs) ys)
        · rw [h]; exact ih xs (b :: ys)

theorem lcs_sublist_left [DecidableEq α] (xs ys : List α) : List.Sublist (lcs xs ys) xs :=
  lcsGo_sublist_left _ xs ys

theorem lcs_sublist_right [DecidableEq α] (xs ys : List α) : List.Sublist (lcs xs ys) ys :=
  lcsGo_sublist_right _ xs ys

theorem lcsGo_self [DecidableEq α] :
    ∀ (fuel : Nat) (xs : List α), xs.length ≤ fuel → lcsGo fuel xs xs = xs := by
  intro fuel
  induction fuel with
  | zero =>
    intro xs h
    have : xs = [] := List.length_eq_zero.mp (Nat.le_zero.mp h)
    subst this
    simp [lcsGo]
  | succ n ih =>
    intro xs h
    match xs with
    | [] => simp [lcsGo]
    | a :: xs =>
      have hlen : xs.length ≤ n := by simp at h; omega
      simp [lcsGo, ih xs hlen]

theorem lcs_self [DecidableEq α] (xs : List α) : lcs xs xs = xs :=
  lcsGo_self _ xs (by simp [Nat.le_add_right])

theorem splitAtFirst_append [DecidableEq α] (c : α) :
    ∀ xs : List α, c ∈ xs → xs = (splitAtFirst c xs).1 ++ c :: (splitAtFirst c xs).2 := by
  intro xs
  induction xs with
  | nil => intro h; cases h
  | cons x xs ih =>
    intro h
    by_cases hx : x = c
    · subst hx; simp [splitAtFirst]
    · have hc : c ∈ xs := by
        cases h with
        | head => exact absurd rfl hx
        | tail _ h2 => exact h2
      simp only [splitAtFirst, if_neg hx]
      simpa using ih hc

theorem splitAtFirst_sublist [DecidableEq α] (c : α) :
    ∀ (xs l : List α), List.Sublist (c :: l) xs → List.Sublist l (splitAtFirst c xs).2 := by
  intro xs
  induction xs with
  | nil => intro l h; simp at h
  | cons x xs ih =>
    intro l h
    by_cases hx : x = c
    · subst hx
      simp only [splitAtFirst, if_pos rfl]
      cases h with
      | cons _ h2 => exact (List.Sublist.cons x (List.Sublist.refl l)).trans h2
      | cons₂ _ h2 => exact h2
    · simp only [splitAtFirst, if_neg hx]
      cases h with
      | cons _ h2 => exact ih l h2
      | cons₂ _ h2 => exact absurd rfl hx

theorem headPos1Ge_mono {m n : Nat} (h : m ≤ n) :
    ∀ cs : List Chunk, headPos1Ge n cs → headPos1Ge m cs
  | [], _ => trivial
  | _ :: _, hc => Nat.le_trans h hc

theorem headPos2Ge_mono {m n : Nat} (h : m ≤ n) :
    ∀ cs : List Chunk, headPos2Ge n cs → headPos2Ge m cs
  | [], _ => trivial
  | _ :: _, hc => Nat.le_trans h hc

theorem chunksFrom_headPos1 [DecidableEq α] :
    ∀ (l xs ys : List α) (i j : Nat), headPos1Ge i (chunksFrom i j xs ys l) := by
  intro l
  induction l with
  | nil =>
    intro xs ys i j
    simp only [chunksFrom]
    split
    · trivial
    · exact Nat.le_refl i
  | cons c l ih =>
    intro xs ys i j
    simp only [chunksFrom]
    split
    · simpa using headPos1Ge_mono (by omega) _ (ih _ _ _ _)
    · exact Nat.le_refl i

theorem chunksFrom_headPos2 [DecidableEq α] :
    ∀ (l xs ys : List α) (i j : Nat), headPos2Ge j (chunksFrom i j xs ys l) := by
  intro l
  induction l with
  | nil =>
    intro xs ys i j
    simp only [chunksFrom]
    split
    · trivial
    · exact Nat.le_refl j
  | cons c l ih =>
    intro xs ys i j
    simp only [chunksFrom]
    split
    · simpa using headPos2Ge_mono (by omega) _ (ih _ _ _ _)
    · exact Nat.le_refl j

theorem applyFrom_cons (new1 : List α) (cs : List Chunk) (i : Nat) (x : α) (xs : List α)
    (h : headPos1Ge (i + 1) cs) :
    applyFrom new1 cs i (x :: xs) = x :: applyFrom new1 cs (i + 1) xs := by
  cases cs with
  | nil => rfl
  | cons c cs =>
    have h1 : i + 1 ≤ c.pos1 := h
    have e1 : c.pos1 - i = (c.pos1 - (i + 1)) + 1 := by omega
    have e2 : c.pos1 + c.len1 - i = (c.pos1 + c.len1 - (i + 1)) + 1 := by omega
    simp only [applyFrom, e1, e2, List.take_succ_cons, List.drop_succ_cons, List.cons_append]

theorem chunksFrom_apply [DecidableEq α] (new1 : List α) :
    ∀ (l xs ys : List α) (i j : Nat), List.Sublist l xs → List.Sublist l ys → new1.drop j = ys →
      applyFrom new1 (chunksFrom i j xs ys l) i xs = ys := by
  intro l
  induction l with
  | nil =>
    intro xs ys i j _ _ hdrop
    simp only [chunksFrom]
    split
    · next hemp =>
      rw [Bool.and_eq_true, List.isEmpty_iff, List.isEmpty_iff] at hemp
      rw [hemp.1, hemp.2]
      rfl
    · simp only [applyFrom, Nat.sub_self, List.take_zero, List.nil_append]
      have e1 : i + xs.length - i = xs.length := by omega
      rw [e1, List.drop_length, hdrop, List.take_length]
      simp [applyFrom]
  | cons c l ih =>
    intro xs ys i j hx hy hdrop
    have hcx : c ∈ xs := hx.subset (List.mem_cons_self c l)
    have hcy : c ∈ ys := hy.subset (List.mem_cons_self c l)
    have hxeq := splitAtFirst_append c xs hcx
    have hyeq := splitAtFirst_append c ys hcy
    have hlx : List.Sublist l (splitAtFirst c xs).2 := splitAtFirst_sublist c xs l hx
    have hly : List.Sublist l (splitAtFirst c ys).2 := splitAtFirst_sublist c ys l hy
    rcases hpx : splitAtFirst c xs with ⟨px, sx⟩
    rcases hpy : splitAtFirst c ys with ⟨py, sy⟩
    rw [hpx] at hxeq hlx
    rw [hpy] at hyeq hly
    simp only at hxeq hyeq hlx hly
    have hdrop2 : new1.drop (j + py.length + 1) = sy := by
      have hnd : new1.drop j = py ++ c :: sy := by rw [hdrop, hyeq]
      have e : j + py.length + 1 = j + (py.length + 1) := by omega
      rw [e, ← List.drop_drop, hnd,
        show py ++ c :: sy = (py ++ [c]) ++ sy by simp,
        show py.length + 1 = (py ++ [c]).length by simp]
      exact List.drop_left _ _
    simp only [chunksFrom, hpx, hpy]
    split
    · next hemp =>
      rw [Bool.and_eq_true, List.isEmpty_iff, List.isEmpty_iff] at hemp
      have hpxe : px = [] := hemp.1
      have hpye : py = [] := hemp.2
      subst hpxe; subst hpye
      simp only [List.nil_append, List.length_nil, Nat.add_zero] at hxeq hyeq hdrop2 ⊢
      rw [hxeq, hyeq]
      rw [applyFrom_cons new1 _ i c sx (chunksFrom_headPos1 l sx sy (i + 1) (j + 1))]
      rw [ih sx sy (i + 1) (j + 1) hlx hly hdrop2]
    · simp only [List.cons_append, List.nil_append]
      simp only [applyFrom, Nat.sub_self, List.take_zero, List.nil_append]
      have e1 : i + px.length - i = px.length := by omega
      rw [e1, hdrop, hyeq, hxeq]
      rw [show (px ++ c :: sx).drop px.length = c :: sx from List.drop_left px (c :: sx),
        show (py ++ c :: sy).take py.length = py from List.take_left py (c :: sy)]
      rw [applyFrom_cons new1 _ (i + px.length) c sx
        (chunksFrom_headPos1 l sx sy (i + px.length + 1) (j + py.length + 1))]
      rw [ih sx sy (i + px.length + 1) (j + py.length + 1) hlx hly hdrop2]

/-- C1: for every pair of input sequences, applying the ordered list of DiffChunks
produced by the comparator (Comparator::CalculateDifference, the algorithm behind
LiveEdit::CompareStrings) to the first sequence reproduces the second sequence
exactly. -/
theorem calculateDifference_roundtrip [DecidableEq α] (xs ys : List α) :
    applyChunks xs ys (calculateDifference xs ys) = ys :=
  chunksFrom_apply ys (lcs xs ys) xs ys 0 0 (lcs_sublist_left xs ys)
    (lcs_sublist_right xs ys) rfl

theorem sepChunks_tail : ∀ {c : Chunk} {cs : List Chunk}, sepChunks (c :: cs) → sepChunks cs
  | _, [], _ => trivial
  | _, _ :: _, h => h.2.2

theorem sepChunks_cons_of {a : Chunk} {cs : List Chunk}
    (h1 : headPos1Ge (a.pos1 + a.len1 + 1) cs)
    (h2 : headPos2Ge (a.pos2 + a.len2 + 1) cs)
    (h3 : sepChunks cs) : sepChunks (a :: cs) := by
  cases cs with
  | nil => trivial
  | cons b rest =>
    have h1' : a.pos1 + a.len1 + 1 ≤ b.pos1 := h1
    have h2' : a.pos2 + a.len2 + 1 ≤ b.pos2 := h2
    exact ⟨by omega, by omega, h3⟩

theorem chunksFrom_sep [DecidableEq α] :
    ∀ (l xs ys : List α) (i j : Nat), sepChunks (chunksFrom i j xs ys l) := by
  intro l
  induction l with
  | nil =>
    intro xs ys i j
    simp only [chunksFrom]
    split
    · trivial
    · trivial
  | cons c l ih =>
    intro xs ys i j
    simp only [chunksFrom]
    split
    · simpa using ih _ _ _ _
    · simp only [List.singleton_append]
      exact sepChunks_cons_of
        (headPos1Ge_mono (Nat.le_refl _) _ (chunksFrom_headPos1 l _ _ _ _))
        (headPos2Ge_mono (Nat.le_refl _) _ (chunksFrom_headPos2 l _ _ _ _))
        (ih _ _ _ _)

theorem chunksFrom_len_pos [DecidableEq α] :
    ∀ (l xs ys : List α) (i j : Nat) (ch : Chunk),
      ch ∈ chunksFrom i j xs ys l → 0 < ch.len1 + ch.len2 := by
  intro l
  induction l with
  | nil =>
    intro xs ys i j ch hch
    simp only [chunksFrom] at hch
    split at hch
    · cases hch
    · next hemp =>
      simp only [List.mem_singleton] at hch
      subst hch
      cases xs <;> cases ys <;> simp_all
  | cons c l ih =>
    intro xs ys i j ch hch
    simp only [chunksFrom] at hch
    split at hch
    · exact ih _ _ _ _ ch (by simpa using hch)
    · next hemp =>
      simp only [List.singleton_append] at hch
      cases hch with
      | head =>
        rcases hpx : splitAtFirst c xs with ⟨px, sx⟩
        rcases hpy : splitAtFirst c ys with ⟨py, sy⟩
        rw [hpx, hpy] at hemp
        simp only [hpx, hpy]
        cases px <;> cases py <;> simp_all
      | tail _ h2 => exact ih _ _ _ _ ch h2

theorem sepChunks_adjacent :
    ∀ (pre : List Chunk) (a b : Chunk) (post : List Chunk),
      sepChunks (pre ++ a :: b :: post) →
      a.pos1 + a.len1 < b.pos1 ∧ a.pos2 + a.len2 < b.pos2 := by
  intro pre
  induction pre with
  | nil => intro a b post h; exact ⟨h.1, h.2.1⟩
  | cons x pre ih => intro a b post h; exact ih a b post (sepChunks_tail h)

theorem chunksFrom_diag [DecidableEq α] :
    ∀ (xs : List α) (i j : Nat), chunksFrom i j xs xs xs = [] := by
  intro xs
  induction xs with
  | nil => intro i j; simp [chunksFrom]
  | cons c xs ih =>
    intro i j
    have hsp : splitAtFirst c (c :: xs) = ([], xs) := by simp [splitAtFirst]
    simp [chunksFrom, hsp, ih]

/-- C6: the comparator's output is canonical-minimal: identical inputs yield an empty
chunk list; every emitted chunk replaces at least one element on some side; and
consecutive chunks are separated by at least one unchanged element on both sides, so
no two adjacent chunks can be merged into a single chunk without replacing unchanged
text: the merged chunk's replaced ranges would be strictly larger than the two chunks'
ranges together on both sides. -/
theorem calculateDifference_minimal [DecidableEq α] (xs ys : List α) :
    calculateDifference xs xs = [] ∧
    sepChunks (calculateDifference xs ys) ∧
    (∀ ch ∈ calculateDifference xs ys, 0 < ch.len1 + ch.len2) ∧
    (∀ (pre : List Chunk) (a b : Chunk) (post : List Chunk),
      calculateDifference xs ys = pre ++ a :: b :: post →
      a.len1 + b.len1 < b.pos1 + b.len1 - a.pos1 ∧
      a.len2 + b.len2 < b.pos2 + b.len2 - a.pos2) := by
  refine ⟨?_, ?_, ?_, ?_⟩
  · unfold calculateDifference
    rw [lcs_self]
    exact chunksFrom_diag xs 0 0
  · exact chunksFrom_sep _ _ _ _ _
  · exact fun ch h => chunksFrom_len_pos _ _ _ _ _ ch h
  · intro pre a b post heq
    have hsep : sepChunks (pre ++ a :: b :: post) := heq ▸ chunksFrom_sep _ _ _ _ _
    have h := sepChunks_adjacent pre a b post hsep
    omega

/-- Witness for C6: concrete inputs discharging the membership hypothesis of the
chunk-positivity conjunct and the decomposition hypothesis of the adjacency
conjunct. -/
theorem calculateDifference_minimal_witness :
    (0 < (Chunk.mk 1 1 1 1).len1 + (Chunk.mk 1 1 1 1).len2) ∧
    ((Chunk.mk 1 1 1 1).len1 + (Chunk.mk 4 4 1 1).len1
        < (Chunk.mk 4 4 1 1).pos1 + (Chunk.mk 4 4 1 1).len1 - (Chunk.mk 1 1 1 1).pos1 ∧
      (Chunk.mk 1 1 1 1).len2 + (Chunk.mk 4 4 1 1).len2
        < (Chunk.mk 4 4 1 1).pos2 + (Chunk.mk 4 4 1 1).len2 - (Chunk.mk 1 1 1 1).pos2) :=
  ⟨(calculateDifference_minimal [1, 2] [1, 3]).2.2.1 (Chunk.mk 1 1 1 1) (by decide),
    (calculateDifference_minimal [1, 2, 3, 4, 5] [1, 9, 3, 4, 8]).2.2.2
      [] (Chunk.mk 1 1 1 1) (Chunk.mk 4 4 1 1) [] (by decide)⟩

/- ===================== Theorems: StackGuard ===================== -/

theorem updateStatus_avail_left (s : FunctionPatchabilityStatus) :
    updateStatus FunctionPatchabilityStatus.availableForPatch s = s := by
  cases s <;> rfl

theorem updateStatus_avail_right (s : FunctionPatchabilityStatus) :
    updateStatus s FunctionPatchabilityStatus.availableForPatch = s := by
  cases s <;> rfl

theorem statusCode_updateStatus (a b : FunctionPatchabilityStatus) :
    statusCode (updateStatus a b) = max (statusCode a) (statusCode b) := by
  cases a <;> cases b <;> decide

theorem updateStatus_eq_or (a b : FunctionPatchabilityStatus) :
    updateStatus a b = a ∨ updateStatus a b = b := by
  unfold updateStatus
  split
  · exact Or.inr rfl
  · exact Or.inl rfl

theorem foldl_updateStatus_mem :
    ∀ (l : List FunctionPatchabilityStatus) (init : FunctionPatchabilityStatus),
      l.foldl updateStatus init = init ∨ l.foldl updateStatus init ∈ l := by
  intro l
  induction l with
  | nil => intro init; exact Or.inl rfl
  | cons x l ih =>
    intro init
    rw [List.foldl_cons]
    rcases ih (updateStatus init x) with h | h
    · rcases updateStatus_eq_or init x with h2 | h2
      · exact Or.inl (by rw [h, h2])
      · exact Or.inr (by rw [h, h2]; exact List.mem_cons_self x l)
    · exact Or.inr (List.mem_cons_of_mem x h)

theorem foldl_updateStatus_ge :
    ∀ (l : List FunctionPatchabilityStatus) (init : FunctionPatchabilityStatus),
      statusCode init ≤ statusCode (l.foldl updateStatus init) ∧
      ∀ x ∈ l, statusCode x ≤ statusCode (l.foldl updateStatus init) := by
  intro l
  induction l with
  | nil =>
    intro init
    exact ⟨Nat.le_refl _, by intro x hx; cases hx⟩
  | cons y l ih =>
    intro init
    rcases ih (updateStatus init y) with ⟨h1, h2⟩
    have hu1 : statusCode init ≤ statusCode (updateStatus init y) := by
      rw [statusCode_updateStatus]; exact Nat.le_max_left _ _
    have hu2 : statusCode y ≤ statusCode (updateStatus init y) := by
      rw [statusCode_updateStatus]; exact Nat.le_max_right _ _
    refine ⟨?_, ?_⟩
    · rw [List.foldl_cons]; exact Nat.le_trans hu1 h1
    · intro x hx
      rw [List.foldl_cons]
      cases hx with
      | head => exact Nat.le_trans hu2 h1
      | tail _ hx2 => exact h2 x hx2

theorem checkStatus_as_foldl (f : Nat) (vm : VMState) :
    checkStatus f vm = (vm.others.map (classifyStack f false)).foldl updateStatus
      (classifyStack f true vm.active) := by
  unfold checkStatus
  rw [updateStatus_avail_left, List.foldl_map]

theorem checkStatus_mem_statusList (f : Nat) (vm : VMState) :
    checkStatus f vm ∈ stackStatusList f vm := by
  rw [checkStatus_as_foldl]
  unfold stackStatusList
  rcases foldl_updateStatus_mem (vm.others.map (classifyStack f false))
      (classifyStack f true vm.active) with h | h
  · rw [h]; exact List.mem_cons_self _ _
  · exact List.mem_cons_of_mem _ h

theorem checkStatus_ge (f : Nat) (vm : VMState) :
    ∀ st ∈ stackStatusList f vm, statusCode st ≤ statusCode (checkStatus f vm) := by
  intro st hst
  rw [checkStatus_as_foldl]
  unfold stackStatusList at hst
  cases hst with
  | head => exact (foldl_updateStatus_ge _ _).1
  | tail _ h => exact (foldl_updateStatus_ge _ _).2 st h

theorem classifyScan_ge_other (f : Nat) :
    ∀ (s : Stack) (ns : Bool) (pc : Nat), Frame.js f pc ∈ s →
      3 ≤ statusCode (classifyScan f false s ns) := by
  intro s
  induction s with
  | nil => intro ns pc h; cases h
  | cons x rest ih =>
    intro ns pc h
    match x with
    | Frame.native =>
      have h2 : Frame.js f pc ∈ rest := by
        cases h with
        | tail _ h2 => exact h2
      simp only [classifyScan]
      exact ih true pc h2
    | Frame.js g q =>
      simp only [classifyScan]
      by_cases hg : g = f
      · rw [if_pos hg]
        cases ns <;> decide
      · rw [if_neg hg]
        have h2 : Frame.js f pc ∈ rest := by
          cases h with
          | head => exact absurd rfl hg
          | tail _ h2 => exact h2
        exact ih ns pc h2

theorem lookup_map_of_mem (h : Nat → FunctionPatchabilityStatus) :
    ∀ (l : List Nat) (f : Nat), f ∈ l →
      (l.map (fun g => (g, h g))).lookup f = some (h f) := by
  intro l
  induction l with
  | nil => intro f hf; cases hf
  | cons x l ih =>
    intro f hf
    by_cases hx : f = x
    · subst hx; simp [List.lookup]
    · have h2 : f ∈ l := by
        cases hf with
        | head => exact absurd rfl hx
        | tail _ h2 => exact h2
      simp only [List.map_cons, List.lookup]
      have hbeq : (f == x) = false := by simpa using hx
      rw [hbeq]
      exact ih f h2

theorem splitAtLastMatch_eq (p : Frame → Bool) :
    ∀ (s : Stack) (r : Stack × Frame × Stack),
      splitAtLastMatch p s = some r →
      s = r.1 ++ r.2.1 :: r.2.2 ∧ p r.2.1 = true := by
  intro s
  induction s with
  | nil => intro r h; cases h
  | cons x xs ih =>
    intro r h
    simp only [splitAtLastMatch] at h
    cases hr : splitAtLastMatch p xs with
    | some r2 =>
      rw [hr] at h
      rcases ih r2 hr with ⟨hdec, hp⟩
      injection h with h2
      subst h2
      exact ⟨by simp [hdec], hp⟩
    | none =>
      rw [hr] at h
      by_cases hpx : p x = true
      · rw [if_pos hpx] at h
        injection h with h2
        subst h2
        exact ⟨by simp, hpx⟩
      · rw [if_neg hpx] at h
        cases h

theorem checkAndDrop_no_drop (changed : List Nat) (doDrop : Bool) (vm : VMState)
    (href : doDrop = false ∨
      (∃ g ∈ changed, 2 < statusCode (checkStatus g vm)) ∨
      (∀ r, splitAtLastMatch (isChangedFrame changed) vm.active = some r →
        r.1.any Frame.isNative = true)) :
    checkAndDropActivations changed doDrop vm =
      { statuses := changed.map (fun g => (g, checkStatus g vm)), vm := vm } := by
  cases hsp : splitAtLastMatch (isChangedFrame changed) vm.active with
  | none => simp only [checkAndDropActivations, hsp]
  | some r =>
    simp only [checkAndDropActivations, hsp]
    split
    · next hcond =>
      exfalso
      rw [Bool.and_eq_true, Bool.and_eq_true] at hcond
      rcases href with h | h | h
      · rw [h] at hcond; simp at hcond
      · rcases h with ⟨g, hg, hgt⟩
        have hc2 := List.all_eq_true.mp hcond.2 g hg
        simp only [decide_eq_true_eq] at hc2
        omega
      · have hnat := h r hsp
        rw [hnat] at hcond
        simp at hcond
    · rfl

theorem foldl_update_avail (g : Stack → FunctionPatchabilityStatus) :
    ∀ (l : List Stack) (init : FunctionPatchabilityStatus),
      (∀ s ∈ l, g s = FunctionPatchabilityStatus.availableForPatch) →
      l.foldl (fun cur s => updateStatus cur (g s)) init = init := by
  intro l
  induction l with
  | nil => intro init _; rfl
  | cons x l ih =>
    intro init hall
    rw [List.foldl_cons, hall x (List.mem_cons_self x l), updateStatus_avail_right]
    exact ih init (fun s hs => hall s (List.mem_cons_of_mem x hs))

/-- C2 counterexample: with doDrop = true and the changed function executing on the
requesting stack with nothing blocking, the drop proceeds: the reported status is
replaced-on-active-stack (not blocked-on-active-stack) and the stack is mutated, so
the claim fails for doDrop = true. -/
theorem checkAndDrop_activeStack_counterexample :
    (checkAndDropActivations [7] true (VMState.mk [Frame.js 7 5] [])).statuses
        = [(7, FunctionPatchabilityStatus.replacedOnActiveStack)] ∧
    (checkAndDropActivations [7] true (VMState.mk [Frame.js 7 5] [])).vm
        ≠ VMState.mk [Frame.js 7 5] [] := by
  decide

/-- C2 (amended): if a changed function is currently executing on the requesting
stack, with no native frame above that activation and no activation on any other
stack, then CheckAndDropActivations reports blocked-on-active-stack for it and, when
doDrop is false, performs no mutation of any stack. -/
theorem checkAndDrop_noDrop_blockedActive (changed : List Nat) (vm : VMState) (f : Nat)
    (hf : f ∈ changed)
    (hact : classifyStack f true vm.active
        = FunctionPatchabilityStatus.blockedOnActiveStack)
    (hoth : ∀ s ∈ vm.others,
        classifyStack f false s = FunctionPatchabilityStatus.availableForPatch) :
    (checkAndDropActivations changed false vm).statuses.lookup f
        = some FunctionPatchabilityStatus.blockedOnActiveStack ∧
    (checkAndDropActivations changed false vm).vm = vm := by
  have hcs : checkStatus f vm = FunctionPatchabilityStatus.blockedOnActiveStack := by
    unfold checkStatus
    rw [updateStatus_avail_left, hact]
    exact foldl_update_avail (classifyStack f false) vm.others _ hoth
  rw [checkAndDrop_no_drop changed false vm (Or.inl rfl)]
  refine ⟨?_, rfl⟩
  rw [lookup_map_of_mem (fun g => checkStatus g vm) changed f hf]
  rw [hcs]

/-- Witness for the amended C2 at a concrete machine state. -/
theorem checkAndDrop_noDrop_blockedActive_witness :
    (checkAndDropActivations [7] false
        (VMState.mk [Frame.js 7 1] [[Frame.js 3 0]])).statuses.lookup 7
      = some FunctionPatchabilityStatus.blockedOnActiveStack ∧
    (checkAndDropActivations [7] false (VMState.mk [Frame.js 7 1] [[Frame.js 3 0]])).vm
      = VMState.mk [Frame.js 7 1] [[Frame.js 3 0]] :=
  checkAndDrop_noDrop_blockedActive [7] (VMState.mk [Frame.js 7 1] [[Frame.js 3 0]]) 7
    (by decide) (by decide) (by decide)

/-- C5: for a changed function whose lowest activation on the requesting stack has no
native frame above it, with no changed function blocked elsewhere and doDrop = true,
CheckAndDropActivations discards all frames above that target frame, restarts the
target at the beginning of its function body, reports replaced-on-active-stack, the
resulting stack depth is the original depth minus the number of discarded frames, and
the frames below the target and the other stacks are unchanged. -/
theorem checkAndDrop_dropCorrectness (changed : List Nat) (vm : VMState) (f pc : Nat)
    (above below : Stack)
    (hsplit : splitAtLastMatch (isChangedFrame changed) vm.active
        = some (above, Frame.js f pc, below))
    (hnat : above.any Frame.isNative = false)
    (hall : ∀ g ∈ changed, statusCode (checkStatus g vm) ≤ 2)
    (hf : f ∈ changed)
    (hstat : checkStatus f vm = FunctionPatchabilityStatus.blockedOnActiveStack) :
    (checkAndDropActivations changed true vm).vm.active = Frame.js f 0 :: below ∧
    (checkAndDropActivations changed true vm).vm.others = vm.others ∧
    (checkAndDropActivations changed true vm).statuses.lookup f
        = some FunctionPatchabilityStatus.replacedOnActiveStack ∧
    (checkAndDropActivations changed true vm).vm.active.length
        = vm.active.length - above.length := by
  have hdec : vm.active = above ++ Frame.js f pc :: below := by
    simpa using (splitAtLastMatch_eq (isChangedFrame changed) vm.active
      (above, Frame.js f pc, below) hsplit).1
  have hcond : (true && !(above.any Frame.isNative) &&
      changed.all (fun g => statusCode (checkStatus g vm) ≤ 2)) = true := by
    rw [hnat]
    simp only [Bool.not_false, Bool.and_self, Bool.true_and]
    rw [List.all_eq_true]
    intro g hg
    simpa using hall g hg
  simp only [checkAndDropActivations, hsplit]
  rw [if_pos hcond]
  refine ⟨rfl, rfl, ?_, ?_⟩
  · rw [lookup_map_of_mem
      (fun g => if checkStatus g vm = FunctionPatchabilityStatus.blockedOnActiveStack
        then FunctionPatchabilityStatus.replacedOnActiveStack else checkStatus g vm)
      changed f hf]
    rw [if_pos hstat]
  · rw [hdec]
    simp only [List.length_append, List.length_cons, restartFrame]
    omega

/-- Witness for C5 at a concrete machine state with one frame above the target and
one frame below it. -/
theorem checkAndDrop_dropCorrectness_witness :
    (checkAndDropActivations [7] true
        (VMState.mk [Frame.js 9 1, Frame.js 7 5, Frame.js 1 0] [])).vm.active
      = Frame.js 7 0 :: [Frame.js 1 0] ∧
    (checkAndDropActivations [7] true
        (VMState.mk [Frame.js 9 1, Frame.js 7 5, Frame.js 1 0] [])).vm.others = [] ∧
    (checkAndDropActivations [7] true
        (VMState.mk [Frame.js 9 1, Frame.js 7 5, Frame.js 1 0] [])).statuses.lookup 7
      = some FunctionPatchabilityStatus.replacedOnActiveStack ∧
    (checkAndDropActivations [7] true
        (VMState.mk [Frame.js 9 1, Frame.js 7 5, Frame.js 1 0] [])).vm.active.length
      = (VMState.mk [Frame.js 9 1, Frame.js 7 5, Frame.js 1 0] []).active.length
          - [Frame.js 9 1].length :=
  checkAndDrop_dropCorrectness [7]
    (VMState.mk [Frame.js 9 1, Frame.js 7 5, Frame.js 1 0] []) 7 5
    [Frame.js 9 1] [Frame.js 1 0] (by decide) (by decide) (by decide) (by decide)
    (by decide)

/-- C7: the status reported for a function with activations on several stacks is the
most restrictive per-stack status observed (blocked-under-native-code outranks
blocked-on-other-stack outranks blocked-on-active-stack outranks available), and the
drop is refused with no mutation whenever a blocking condition exists (an activation
on another stack, or a native frame above the target on the stack that would be
unwound). -/
theorem checkAndDrop_aggregation (changed : List Nat) (doDrop : Bool) (vm : VMState)
    (f : Nat) (hf : f ∈ changed)
    (hblock : (∃ s ∈ vm.others, ∃ pc, Frame.js f pc ∈ s) ∨
      (∃ above t below, splitAtLastMatch (isChangedFrame changed) vm.active
          = some (above, t, below) ∧ Frame.native ∈ above)) :
    checkStatus f vm ∈ stackStatusList f vm ∧
    (∀ st ∈ stackStatusList f vm, statusCode st ≤ statusCode (checkStatus f vm)) ∧
    (checkAndDropActivations changed doDrop vm).statuses.lookup f
        = some (checkStatus f vm) ∧
    (checkAndDropActivations changed doDrop vm).vm = vm := by
  have href : doDrop = false ∨
      (∃ g ∈ changed, 2 < statusCode (checkStatus g vm)) ∨
      (∀ r, splitAtLastMatch (isChangedFrame changed) vm.active = some r →
        r.1.any Frame.isNative = true) := by
    rcases hblock with ⟨s, hs, pc, hmem⟩ | ⟨above, t, below, hsp, hmem⟩
    · refine Or.inr (Or.inl ⟨f, hf, ?_⟩)
      have h3 : 3 ≤ statusCode (classifyStack f false s) :=
        classifyScan_ge_other f s false pc hmem
      have hle := checkStatus_ge f vm (classifyStack f false s)
        (List.mem_cons_of_mem _ (List.mem_map_of_mem _ hs))
      omega
    · refine Or.inr (Or.inr ?_)
      intro r hr
      rw [hsp] at hr
      injection hr with hr2
      subst hr2
      exact List.any_eq_true.mpr ⟨Frame.native, hmem, rfl⟩
  rw [checkAndDrop_no_drop changed doDrop vm href]
  exact ⟨checkStatus_mem_statusList f vm, checkStatus_ge f vm,
    lookup_map_of_mem (fun g => checkStatus g vm) changed f hf, rfl⟩

/-- Witness for C7 at a concrete machine state where the changed function is active
on the requesting stack and also running on another stack. -/
theorem checkAndDrop_aggregation_witness :
    checkStatus 7 (VMState.mk [Frame.js 7 0] [[Frame.js 7 2]])
        ∈ stackStatusList 7 (VMState.mk [Frame.js 7 0] [[Frame.js 7 2]]) ∧
    (∀ st ∈ stackStatusList 7 (VMState.mk [Frame.js 7 0] [[Frame.js 7 2]]),
        statusCode st ≤ statusCode (checkStatus 7 (VMState.mk [Frame.js 7 0] [[Frame.js 7 2]]))) ∧
    (checkAndDropActivations [7] true (VMState.mk [Frame.js 7 0] [[Frame.js 7 2]])).statuses.lookup 7
        = some (checkStatus 7 (VMState.mk [Frame.js 7 0] [[Frame.js 7 2]])) ∧
    (checkAndDropActivations [7] true (VMState.mk [Frame.js 7 0] [[Frame.js 7 2]])).vm
        = VMState.mk [Frame.js 7 0] [[Frame.js 7 2]] :=
  checkAndDrop_aggregation [7] true (VMState.mk [Frame.js 7 0] [[Frame.js 7 2]]) 7
    (by decide) (Or.inl ⟨[Frame.js 7 2], by decide, 2, by decide⟩)

/- ===================== Theorems: CompatibilityAnalyzer ===================== -/

theorem wellFormedParents_spec {t : List FunctionRecord}
    (hwf : wellFormedParents t = true) :
    ∀ (j : Nat) (r : FunctionRecord) (p : Nat),
      t.get? j = some r → r.parentIndex = some p → p < j := by
  intro j r p hj hp
  have hjlen : j < t.length := by
    by_contra hge
    rw [List.get?_eq_none.mpr (Nat.le_of_not_lt hge)] at hj
    cases hj
  have hall := List.all_eq_true.mp hwf j (List.mem_range.mpr hjlen)
  simp only [hj, hp] at hall
  exact of_decide_eq_true hall

theorem patchTargetGo_le (oldT newT : List FunctionRecord)
    (hwf : wellFormedParents oldT = true) :
    ∀ (i fuel : Nat), patchTargetGo oldT newT fuel i ≤ i := by
  intro i
  induction i using Nat.strong_induction_on with
  | _ i ih =>
    intro fuel
    cases fuel with
    | zero => exact Nat.le_refl i
    | succ f =>
      simp only [patchTargetGo]
      split
      · exact Nat.le_refl i
      · next r hr =>
        split
        · exact Nat.le_refl i
        · next p hp =>
          split
          · exact Nat.le_refl i
          · have hpi : p < i := wellFormedParents_spec hwf i r p hr hp
            exact Nat.le_trans (ih p hpi f) (Nat.le_of_lt hpi)

theorem patchTargetGo_fuel (oldT newT : List FunctionRecord)
    (hwf : wellFormedParents oldT = true) :
    ∀ (i fuel1 fuel2 : Nat), i < fuel1 → i < fuel2 →
      patchTargetGo oldT newT fuel1 i = patchTargetGo oldT newT fuel2 i := by
  intro i
  induction i using Nat.strong_induction_on with
  | _ i ih =>
    intro fuel1 fuel2 h1 h2
    cases fuel1 with
    | zero => omega
    | succ f1 =>
      cases fuel2 with
      | zero => omega
      | succ f2 =>
        simp only [patchTargetGo]
        split
        · rfl
        · next r hr =>
          split
          · rfl
          · next p hp =>
            split
            · rfl
            · have hpi : p < i := wellFormedParents_spec hwf i r p hr hp
              exact ih p hpi f1 f2 (by omega) (by omega)

/-- C3: under the arena invariant (parent indices point strictly upwards), an affected
record is its own patch target exactly when its parameter count, literal count and
captured outer-scope shape match its structurally corresponding record in the new
tree; when they differ the patch mark propagates to the parent record; and a root
record (no parent) is always its own patch target. -/
theorem patchTarget_spec (oldT newT : List FunctionRecord) (i : Nat)
    (r : FunctionRecord)
    (hwf : wellFormedParents oldT = true)
    (hr : oldT.get? i = some r) :
    (r.parentIndex = none → patchTarget oldT newT i = i) ∧
    (∀ p, r.parentIndex = some p →
      ((patchTarget oldT newT i = i ↔ compatibleAt oldT newT i = true) ∧
        (compatibleAt oldT newT i = false →
          patchTarget oldT newT i = patchTarget oldT newT p))) ∧
    (∀ a b, oldT.get? i = some a → newT.get? i = some b →
      (compatibleAt oldT newT i = true ↔
        (a.paramCount = b.paramCount ∧ a.literalCount = b.literalCount ∧
          a.scopeShape = b.scopeShape))) := by
  have hr2 : oldT[i]? = some r := by simpa using hr
  refine ⟨?_, ?_, ?_⟩
  · intro hp
    unfold patchTarget
    simp [patchTargetGo, hr2, hp]
  · intro p hp
    have hpi : p < i := wellFormedParents_spec hwf i r p hr hp
    have hstep : compatibleAt oldT newT i = false →
        patchTarget oldT newT i = patchTarget oldT newT p := by
      intro hcf
      have hL : patchTarget oldT newT i = patchTargetGo oldT newT i p := by
        show patchTargetGo oldT newT (i + 1) i = patchTargetGo oldT newT i p
        simp only [patchTargetGo, hr, hp, hcf, Bool.false_eq_true, if_false]
      rw [hL, patchTargetGo_fuel oldT newT hwf p i (p + 1) (by omega) (by omega)]
      rfl
    refine ⟨⟨?_, ?_⟩, hstep⟩
    · intro heq
      by_contra hc
      have hcf : compatibleAt oldT newT i = false := by
        cases hcc : compatibleAt oldT newT i
        · rfl
        · exact absurd hcc hc
      have hle : patchTarget oldT newT p ≤ p := patchTargetGo_le oldT newT hwf p (p + 1)
      rw [hstep hcf] at heq
      omega
    · intro hct
      unfold patchTarget
      simp [patchTargetGo, hr2, hp, hct]
  · intro a b ha hb
    have hra : r = a := by rw [hr] at ha; injection ha
    unfold compatibleAt
    rw [ha, hb]
    unfold compatibleRecords
    simp [Bool.and_eq_true, beq_iff_eq, and_assoc]

/-- Witness for C3: a two-record tree whose child changed its parameter count is not
its own patch target; the mark propagates to the root record. -/
theorem patchTarget_spec_witness :
    patchTarget
        [FunctionRecord.mk "root" 0 0 [] none 0 0, FunctionRecord.mk "f" 2 1 [1] (some 0) 1 1]
        [FunctionRecord.mk "root" 0 0 [] none 2 2, FunctionRecord.mk "f" 3 1 [1] (some 0) 3 3]
        1
      = patchTarget
        [FunctionRecord.mk "root" 0 0 [] none 0 0, FunctionRecord.mk "f" 2 1 [1] (some 0) 1 1]
        [FunctionRecord.mk "root" 0 0 [] none 2 2, FunctionRecord.mk "f" 3 1 [1] (some 0) 3 3]
        0 :=
  ((patchTarget_spec
      [FunctionRecord.mk "root" 0 0 [] none 0 0, FunctionRecord.mk "f" 2 1 [1] (some 0) 1 1]
      [FunctionRecord.mk "root" 0 0 [] none 2 2, FunctionRecord.mk "f" 3 1 [1] (some 0) 3 3]
      1 (FunctionRecord.mk "f" 2 1 [1] (some 0) 1 1) (by decide) (by decide)).2.1
    0 (by decide)).2 (by decide)

/- ===================== Theorems: CodePatcher ===================== -/

/-- C4: if either script version fails to compile, the whole patch operation aborts
before any mutation: the general error slot is set and the program state (every
record's code and scope-info handle, the closures and the stacks) is returned exactly
as it was. -/
theorem patchOperation_compileError (oldCompile newCompile : Option (List FunctionRecord))
    (planOf : List FunctionRecord → List FunctionRecord → List (Nat × Nat × Nat))
    (st : ProgState)
    (h : oldCompile = none ∨ newCompile = none) :
    patchOperation oldCompile newCompile planOf st = (some "compile error", st) := by
  rcases h with h | h
  · subst h; rfl
  · subst h; cases oldCompile <;> rfl

/-- Witness for C4 with a failing compile of both versions. -/
theorem patchOperation_compileError_witness :
    patchOperation none none (fun _ _ => []) (ProgState.mk [] [] [])
      = (some "compile error", ProgState.mk [] [] []) :=
  patchOperation_compileError none none (fun _ _ => []) (ProgState.mk [] [] [])
    (Or.inl rfl)

theorem setCodeAt_get_ne :
    ∀ (recs : List FunctionRecord) (idx c s j : Nat), j ≠ idx →
      (setCodeAt recs idx c s).get? j = recs.get? j := by
  intro recs
  induction recs with
  | nil => intro idx c s j _; rfl
  | cons r rest ih =>
    intro idx c s j h
    cases idx with
    | zero =>
      cases j with
      | zero => exact absurd rfl h
      | succ j2 => simp [setCodeAt]
    | succ idx2 =>
      cases j with
      | zero => rfl
      | succ j2 =>
        simp only [setCodeAt, List.get?_cons_succ]
        exact ih idx2 c s j2 (by omega)

theorem setCodeAt_stripCode :
    ∀ (recs : List FunctionRecord) (idx c s : Nat),
      (setCodeAt recs idx c s).map stripCode = recs.map stripCode := by
  intro recs
  induction recs with
  | nil => intro idx c s; rfl
  | cons r rest ih =>
    intro idx c s
    cases idx with
    | zero => simp [setCodeAt, stripCode]
    | succ idx2 =>
      simp only [setCodeAt, List.map_cons]
      rw [ih idx2 c s]

theorem replacePlan_get_ne (plan : List (Nat × Nat × Nat)) :
    ∀ (recs : List FunctionRecord) (j : Nat), (∀ e ∈ plan, j ≠ e.1) →
      (plan.foldl (fun rs e => setCodeAt rs e.1 e.2.1 e.2.2) recs).get? j
        = recs.get? j := by
  induction plan with
  | nil => intro recs j _; rfl
  | cons e plan ih =>
    intro recs j hj
    rw [List.foldl_cons]
    rw [ih _ j (fun e2 he2 => hj e2 (List.mem_cons_of_mem e he2))]
    exact setCodeAt_get_ne recs e.1 e.2.1 e.2.2 j (hj e (List.mem_cons_self e plan))

theorem replacePlan_stripCode (plan : List (Nat × Nat × Nat)) :
    ∀ recs : List FunctionRecord,
      (plan.foldl (fun rs e => setCodeAt rs e.1 e.2.1 e.2.2) recs).map stripCode
        = recs.map stripCode := by
  induction plan with
  | nil => intro recs; rfl
  | cons e plan ih =>
    intro recs
    rw [List.foldl_cons, ih, setCodeAt_stripCode]

/-- C9: ReplaceFunctionCode modifies only the compiled-code and scope-info handles of
the records listed in the patch plan: records at unlisted indices (nested functions
beneath a patched one among them) are returned unchanged, every record keeps all of
its other fields, already-created closures keep the code handle they captured, and
the live stacks are untouched. -/
theorem replaceFunctionCode_frame (plan : List (Nat × Nat × Nat)) (st : ProgState) :
    (∀ j, (∀ e ∈ plan, j ≠ e.1) →
      (replaceFunctionCode plan st).records.get? j = st.records.get? j) ∧
    (replaceFunctionCode plan st).records.map stripCode = st.records.map stripCode ∧
    (replaceFunctionCode plan st).closures = st.closures ∧
    (replaceFunctionCode plan st).liveStacks = st.liveStacks := by
  refine ⟨?_, ?_, rfl, rfl⟩
  · intro j hj
    exact replacePlan_get_ne plan st.records j hj
  · exact replacePlan_stripCode plan st.records

/-- Witness for C9: patching record 0 leaves the nested record at index 1 exactly as
it was. -/
theorem replaceFunctionCode_frame_witness :
    (replaceFunctionCode [(0, 5, 6)]
        (ProgState.mk
          [FunctionRecord.mk "root" 0 0 [] none 1 1, FunctionRecord.mk "g" 1 0 [] (some 0) 2 2]
          [(0, 1)] [[Frame.js 0 0]])).records.get? 1
      = (ProgState.mk
          [FunctionRecord.mk "root" 0 0 [] none 1 1, FunctionRecord.mk "g" 1 0 [] (some 0) 2 2]
          [(0, 1)] [[Frame.js 0 0]]).records.get? 1 :=
  (replaceFunctionCode_frame [(0, 5, 6)]
      (ProgState.mk
        [FunctionRecord.mk "root" 0 0 [] none 1 1, FunctionRecord.mk "g" 1 0 [] (some 0) 2 2]
        [(0, 1)] [[Frame.js 0 0]])).1 1 (by decide)

/- ===================== Theorems: JSArray-based wrappers ===================== -/

/-- C8: a fully built compile-info record occupies exactly ten slots in the fixed
positional order [name, startPosition, endPosition, paramCount, code, codeScopeInfo,
functionScopeInfo, parentIndex, sharedFunctionInfo, literalCount] (offsets 0 to 9,
kSize_ = 10), and each getter reads the slot at exactly its offset. -/
theorem functionInfoWrapper_layout (a : Nat → Obj) (name : String)
    (startPos endPos paramNum literalCount parentIndex : Int)
    (functionCode codeScopeInfo scopeInfoArray sharedInfo : Obj) :
    (FunctionInfoWrapper.kSize_ = 10 ∧
      [FunctionInfoWrapper.kFunctionNameOffset_, FunctionInfoWrapper.kStartPositionOffset_,
        FunctionInfoWrapper.kEndPositionOffset_, FunctionInfoWrapper.kParamNumOffset_,
        FunctionInfoWrapper.kCodeOffset_, FunctionInfoWrapper.kCodeScopeInfoOffset_,
        FunctionInfoWrapper.kFunctionScopeInfoOffset_, FunctionInfoWrapper.kParentIndexOffset_,
        FunctionInfoWrapper.kSharedFunctionInfoOffset_, FunctionInfoWrapper.kLiteralNumOffset_]
        = [0, 1, 2, 3, 4, 5, 6, 7, 8, 9]) ∧
    ([FunctionInfoWrapper.buildFunctionInfo a name startPos endPos paramNum literalCount
        parentIndex functionCode codeScopeInfo scopeInfoArray sharedInfo 0,
      FunctionInfoWrapper.buildFunctionInfo a name startPos endPos paramNum literalCount
        parentIndex functionCode codeScopeInfo scopeInfoArray sharedInfo 1,
      FunctionInfoWrapper.buildFunctionInfo a name startPos endPos paramNum literalCount
        parentIndex functionCode codeScopeInfo scopeInfoArray sharedInfo 2,
      FunctionInfoWrapper.buildFunctionInfo a name startPos endPos paramNum literalCount
        parentIndex functionCode codeScopeInfo scopeInfoArray sharedInfo 3,
      FunctionInfoWrapper.buildFunctionInfo a name startPos endPos paramNum literalCount
        parentIndex functionCode codeScopeInfo scopeInfoArray sharedInfo 4,
      FunctionInfoWrapper.buildFunctionInfo a name startPos endPos paramNum literalCount
        parentIndex functionCode codeScopeInfo scopeInfoArray sharedInfo 5,
      FunctionInfoWrapper.buildFunctionInfo a name startPos endPos paramNum literalCount
        parentIndex functionCode codeScopeInfo scopeInfoArray sharedInfo 6,
      FunctionInfoWrapper.buildFunctionInfo a name startPos endPos paramNum literalCount
        parentIndex functionCode codeScopeInfo scopeInfoArray sharedInfo 7,
      FunctionInfoWrapper.buildFunctionInfo a name startPos endPos paramNum literalCount
        parentIndex functionCode codeScopeInfo scopeInfoArray sharedInfo 8,
      FunctionInfoWrapper.buildFunctionInfo a name startPos endPos paramNum literalCount
        parentIndex functionCode codeScopeInfo scopeInfoArray sharedInfo 9]
      = [Obj.str name, Obj.smi startPos, Obj.smi endPos, Obj.smi paramNum, functionCode,
          codeScopeInfo, scopeInfoArray, Obj.smi parentIndex, sharedInfo,
          Obj.smi literalCount]) ∧
    FunctionInfoWrapper.getStartPosition (FunctionInfoWrapper.buildFunctionInfo a name
      startPos endPos paramNum literalCount parentIndex functionCode codeScopeInfo
      scopeInfoArray sharedInfo) = startPos ∧
    FunctionInfoWrapper.getEndPosition (FunctionInfoWrapper.buildFunctionInfo a name
      startPos endPos paramNum literalCount parentIndex functionCode codeScopeInfo
      scopeInfoArray sharedInfo) = endPos ∧
    FunctionInfoWrapper.getParentIndex (FunctionInfoWrapper.buildFunctionInfo a name
      startPos endPos paramNum literalCount parentIndex functionCode codeScopeInfo
      scopeInfoArray sharedInfo) = parentIndex ∧
    FunctionInfoWrapper.getLiteralCount (FunctionInfoWrapper.buildFunctionInfo a name
      startPos endPos paramNum literalCount parentIndex functionCode codeScopeInfo
      scopeInfoArray sharedInfo) = literalCount :=
  ⟨⟨rfl, rfl⟩, rfl, rfl, rfl, rfl, rfl⟩

/-- C10: SharedInfoWrapper::IsInstance is true exactly when the array's length equals
4 (kSize_) and its element at index 3 (kSharedInfoOffset_) is a JSValue; every other
shape yields false, the check being a total function of the array. -/
theorem sharedInfoWrapper_isInstance_spec (a : List Obj) :
    SharedInfoWrapper.isInstance a = true ↔
      (a.length = 4 ∧
        isJSValueObj (SharedInfoWrapper.getElementNoExceptionThrown a 3) = true) := by
  unfold SharedInfoWrapper.isInstance SharedInfoWrapper.kSize_
    SharedInfoWrapper.kSharedInfoOffset_
  rw [Bool.and_eq_true, beq_iff_eq]

end LiveEditModel
